import Mathlib

/-!
Verification development for the VetAI-Analyzer repository.

The repository's core is a family of free-text response parsers that turn the
raw output of a generative-language API into structured records, plus a small
clinic-distance component.  This file gives a shallow embedding of those
functions in Lean, working on `List Char` (JavaScript strings are sequences of
characters; all the parsing code is character/substring based), and proves or
refutes the specified properties about them.

Embedded source functions:
* `extractConditions`, `extractDescriptionForCondition`, `extractRecommendations`,
  `extractDiagnosticTests`, `extractLongTermManagement` from `api-server.js`
  (the "generic" analysis flow);
* `parseResponse` and the pre-parse response formatting from the clinical-flow
  React form component;
* `calculateDistance` / `deg2rad` and the clinic sorting from
  `NearbyVetsMap.tsx` (modelled over the reals).

JavaScript regular expressions are embedded as explicit character-list
matchers that reproduce the engine's leftmost-match, greedy/lazy and
backtracking behaviour for the concrete patterns appearing in the source.
-/

namespace VetAI

/-! ## Character and string helpers (JS semantics) -/

/-- JS whitespace class `\s` restricted to the characters relevant here
(space, tab, newline, carriage return, vertical tab, form feed); also the
character class used by `String.prototype.trim`. -/
def isWs (c : Char) : Bool :=
  c = ' ' || c = '\t' || c = '\n' || c = '\r' || c = '\x0b' || c = '\x0c'

/-- ASCII lower-casing of one character, as `String.prototype.toLowerCase`
acts on the ASCII letters (the only letters occurring in the parser's
keywords). -/
def lcChar (c : Char) : Char :=
  if 'A' ≤ c ∧ c ≤ 'Z' then Char.ofNat (c.toNat + 32) else c

/-- Lower-case a character list. -/
def lcs (cs : List Char) : List Char := cs.map lcChar

/-- `String.prototype.trim`: drop whitespace from both ends. -/
def trimL (cs : List Char) : List Char :=
  ((cs.dropWhile isWs).reverse.dropWhile isWs).reverse

/-- Substring test (JS `String.prototype.includes`). -/
def occursIn : List Char → List Char → Bool
  | pat, [] => List.isPrefixOf pat []
  | pat, c :: cs => List.isPrefixOf pat (c :: cs) || occursIn pat cs

/-- `line.toLowerCase().includes(pat)` for an ASCII-lower-case literal `pat`. -/
def lcHas (cs : List Char) (pat : String) : Bool :=
  occursIn pat.data (lcs cs)

/-- Case-insensitive "starts with" for an ASCII-lower-case literal `pat`. -/
def ciLeads (pat : String) (cs : List Char) : Bool :=
  List.isPrefixOf pat.data (lcs cs)

/-- `String.prototype.split('\n')` on a character list. -/
def splitNl : List Char → List (List Char)
  | [] => [[]]
  | c :: cs =>
    if c = '\n' then [] :: splitNl cs
    else
      match splitNl cs with
      | [] => [[c]]
      | l :: ls => (c :: l) :: ls

/-- Regex `\w` (ASCII word character). -/
def isWordChar (c : Char) : Bool :=
  ('a' ≤ c ∧ c ≤ 'z') || ('A' ≤ c ∧ c ≤ 'Z') || ('0' ≤ c ∧ c ≤ '9') || c = '_'

/-- Regex `\d`. -/
def isDigitCh (c : Char) : Bool := '0' ≤ c ∧ c ≤ '9'

/-- Regex `[A-Z]` without the ignore-case flag. -/
def isUpperCh (c : Char) : Bool := 'A' ≤ c ∧ c ≤ 'Z'

/-- ASCII letter (what `[A-Z]` matches under the `/i` flag). -/
def isLetterCh (c : Char) : Bool := ('a' ≤ c ∧ c ≤ 'z') || ('A' ≤ c ∧ c ≤ 'Z')

/-- Rebuild a `String` from characters. -/
def strOf (cs : List Char) : String := String.mk cs

/-! ## Generic-flow condition extraction (`api-server.js`, `extractConditions`) -/

/-- One entry of `possibleConditions` as built by `api-server.js`:
`{condition, probability, description}`. -/
structure Cond where
  condition : String
  probability : String
  description : String
deriving DecidableEq, Repr

/-- Drop up to two leading asterisks (greedy `\*?\*?`). -/
def starsDrop : List Char → List Char
  | '*' :: '*' :: rest => rest
  | '*' :: rest => rest
  | rest => rest

/-- Attempt of `/\|\s*\*?\*?([^|]+)\*?\*?\s*\|\s*(\w+)\s*\|/` at a position
just after an opening `|`.  The segment up to the next `|` is group 1 minus
the greedy `\s*\*?\*?` lead (the regex backtracks to one final character when
the greedy lead would consume the whole segment); after the second `|` the
pattern needs optional spaces, a word (group 2), optional spaces and a
closing `|`. -/
def tableAt (cs : List Char) : Option (List Char × List Char) :=
  let seg := cs.takeWhile (· ≠ '|')
  match cs.dropWhile (· ≠ '|') with
  | '|' :: afterPipe =>
    if seg.isEmpty then none
    else
      let pre := starsDrop (seg.dropWhile isWs)
      let g1 := if pre.isEmpty then (seg.getLast?.elim [] (fun c => [c])) else pre
      let afterWs := afterPipe.dropWhile isWs
      let w := afterWs.takeWhile isWordChar
      if w.isEmpty then none
      else
        match (afterWs.dropWhile isWordChar).dropWhile isWs with
        | '|' :: _ => some (g1, w)
        | _ => none
  | _ => none

/-- Leftmost search for the markdown-table-row pattern: a match can only start
at a `|`. -/
def tableSearch : List Char → Option (List Char × List Char)
  | [] => none
  | '|' :: cs =>
    match tableAt cs with
    | some r => some r
    | none => tableSearch cs
  | _ :: cs => tableSearch cs

/-- Backtracking tail of `/([^-:]+)[-:]\s*(\w+)\s*probability/i` after the
`[-:]`: the greedy `\w+` run is shortened from the right until the literal
`probability` (case-insensitive) follows; `\s*` between them can only be
non-empty when the whole run is kept. -/
def stdPick : List Char → List Char → List Char → Option (List Char)
  | [], _, _ => none
  | c :: rs, back, rest =>
    if (if back.isEmpty then ciLeads "probability" (rest.dropWhile isWs)
        else ciLeads "probability" (back ++ rest)) then
      some (c :: rs).reverse
    else stdPick rs (c :: back) rest

/-- After a `-` or `:`: skip spaces, read a word, then require `probability`
(with possible backtracking of the word run). -/
def stdTail (cs : List Char) : Option (List Char) :=
  let afterWs := cs.dropWhile isWs
  let run := afterWs.takeWhile isWordChar
  if run.isEmpty then none
  else stdPick run.reverse [] (afterWs.dropWhile isWordChar)

/-- Leftmost search for `/([^-:]+)[-:]\s*(\w+)\s*probability/i`: group 1 is
the (non-empty) run of non-`-`/`:` characters ending at the separator; after
a failed attempt the search resumes past that separator. -/
def stdScan (acc : List Char) : List Char → Option (List Char × List Char)
  | [] => none
  | c :: rs =>
    if c = '-' ∨ c = ':' then
      if acc.isEmpty then stdScan [] rs
      else
        match stdTail rs with
        | some w => some (acc.reverse, w)
        | none => stdScan [] rs
    else stdScan (c :: acc) rs

/-- After a `(`: group 2 is `\w+` immediately followed by `)`. -/
def parenProbe (cs : List Char) : Option (List Char) :=
  match cs.dropWhile isWs with
  | '(' :: r =>
    let w := r.takeWhile isWordChar
    if w.isEmpty then none
    else
      match r.dropWhile isWordChar with
      | ')' :: _ => some w
      | _ => none
  | _ => none

/-- Lazy `(.+?)\s*\((\w+)\)`: grow the (non-empty, newline-free) content one
character at a time, checking after each step whether `\s*\((\w+)\)`
follows. -/
def lazyParen (acc : List Char) : List Char → Option (List Char × List Char)
  | [] => none
  | c :: rest =>
    if c = '\n' then none
    else
      match parenProbe rest with
      | some w => some ((c :: acc).reverse, w)
      | none => lazyParen (c :: acc) rest

/-- `\s+(.+?)\s*\((\w+)\)` after a bullet or a `\d+\.`: the greedy `\s+` is
tried from its longest extent down to one character, each time running the
lazy content matcher on what remains. -/
def bulletTry : List Char → List Char → Option (List Char × List Char)
  | [], _ => none
  | [_], tail => lazyParen [] tail
  | c :: wsRev, tail =>
    match lazyParen [] tail with
    | some r => some r
    | none => bulletTry wsRev (c :: tail)

/-- Anchored `/^[*•-]\s+(.+?)\s*\((\w+)\)/`. -/
def bulletMatch : List Char → Option (List Char × List Char)
  | c :: rest =>
    if c = '*' ∨ c = '•' ∨ c = '-' then
      let ws := rest.takeWhile isWs
      if ws.isEmpty then none
      else bulletTry ws.reverse (rest.dropWhile isWs)
    else none
  | [] => none

/-- Anchored `/^\d+\.\s+(.+?)\s*\((\w+)\)/`. -/
def numberedMatch (cs : List Char) : Option (List Char × List Char) :=
  let ds := cs.takeWhile isDigitCh
  if ds.isEmpty then none
  else
    match cs.dropWhile isDigitCh with
    | '.' :: rest =>
      let ws := rest.takeWhile isWs
      if ws.isEmpty then none
      else bulletTry ws.reverse (rest.dropWhile isWs)
    | _ => none

/-- The per-line rule chain of the first pass of `extractConditions`: skip
table headers/separators, then try table row, standard `- TAG probability`,
bulleted and numbered forms in this order. -/
def matchCondLine (l : List Char) : Option Cond :=
  if l.contains '|' && (occursIn "Condition".data l || occursIn "---".data l) then
    none
  else
    match tableSearch l with
    | some (g1, w) =>
      some ⟨strOf (trimL (g1.filter (· ≠ '*'))), strOf (trimL w), ""⟩
    | none =>
      match stdScan [] l with
      | some (g1, w) => some ⟨strOf (trimL g1), strOf (trimL w), ""⟩
      | none =>
        match bulletMatch l with
        | some (g1, w) => some ⟨strOf (trimL g1), strOf (trimL w), ""⟩
        | none =>
          match numberedMatch l with
          | some (g1, w) => some ⟨strOf (trimL g1), strOf (trimL w), ""⟩
          | none => none

/-- First pass of `extractConditions`: a line state machine that enters the
conditions section at a recognized heading, leaves it (stopping the whole
pass) at a description/recommendations/advice line, and otherwise applies the
per-line rules to non-blank lines. -/
def condPass : List (List Char) → Bool → List Cond → List Cond
  | [], _, acc => acc
  | l :: ls, inSec, acc =>
    if lcHas l "possible conditions" || lcHas l "potential diagnoses" ||
        lcHas l "possible diagnoses" then
      condPass ls true acc
    else if inSec && (lcHas l "description of each condition" ||
        lcHas l "recommendations" || lcHas l "advice") then
      acc
    else if inSec && !(trimL l).isEmpty then
      condPass ls inSec (acc ++ (matchCondLine l).toList)
    else condPass ls inSec acc

/-- One application of `line.replace(/^[*•-]\s*\*?\*?/, '')`: an optional
leading bullet with optional spaces and up to two asterisks. -/
def stripBulletStars : List Char → List Char
  | c :: rest =>
    if c = '*' ∨ c = '•' ∨ c = '-' then starsDrop (rest.dropWhile isWs)
    else c :: rest
  | [] => []

/-- Does a line match the condition name, as in the description pass: the
bullet-stripped line starts with the name case-insensitively, or the line
contains the name wrapped in `**…**` or `*…*`. -/
def nameLineMatch (l : List Char) (name : String) : Bool :=
  List.isPrefixOf (lcs name.data) (lcs (stripBulletStars l)) ||
  occursIn ("**" ++ name ++ "**").data l ||
  occursIn ("*" ++ name ++ "*").data l

/-- `/^[*•-]\s*\*?\*?[A-Z]/`, the "start of a new condition" test used to end
the look-ahead when collecting description lines.  After the bullet and
spaces, up to two asterisks may precede the upper-case letter. -/
def upperAfterStars : List Char → Bool
  | '*' :: '*' :: c :: _ => isUpperCh c
  | '*' :: c :: _ => isUpperCh c
  | c :: _ => isUpperCh c
  | [] => false

/-- `lines[k].match(/^[*•-]\s*\*?\*?[A-Z]/)`. -/
def newCondStart : List Char → Bool
  | c :: rest =>
    if c = '*' ∨ c = '•' ∨ c = '-' then upperAfterStars (rest.dropWhile isWs)
    else false
  | [] => false

/-- The look-ahead of the description pass: subsequent lines are appended
while they are non-blank, do not start a new bulleted condition and do not
mention recommendations. -/
def descLookahead (ls : List (List Char)) : List (List Char) :=
  ls.takeWhile (fun lk =>
    !(trimL lk).isEmpty && !newCondStart lk && !lcHas lk "recommendations")

/-- Build a description from the matched line (text after its first colon)
and the look-ahead lines, exactly as the source concatenates them with
spaces and trims the result. -/
def buildDesc (l : List Char) (ls : List (List Char)) : List Char :=
  let base :=
    if l.contains ':' then trimL ((l.dropWhile (· ≠ ':')).drop 1) else []
  trimL (base ++ ((descLookahead ls).map (fun lk => ' ' :: trimL lk)).flatten)

/-- Update the first condition whose name matches the current line with the
description built from that line (the `break` in the inner `for j` loop). -/
def descUpdate (l : List Char) (ls : List (List Char)) : List Cond → List Cond
  | [] => []
  | c :: cs =>
    if nameLineMatch l c.condition then
      { c with description := strOf (buildDesc l ls) } :: cs
    else c :: descUpdate l ls cs

/-- Second pass of `extractConditions`: a state machine over the lines that
enters a descriptions section, stops (for good) at a recommendations/advice
line, and on each non-blank line inside the section fills in the description
of the first matching condition. -/
def descPass : List (List Char) → Bool → List Cond → List Cond
  | [], _, conds => conds
  | l :: ls, inSec, conds =>
    if lcHas l "description of each condition" ||
        (lcHas l "description" && !inSec) then
      descPass ls true conds
    else if inSec && (lcHas l "recommendations" || lcHas l "advice") then
      conds
    else if inSec && !(trimL l).isEmpty then
      descPass ls inSec (descUpdate l ls conds)
    else descPass ls inSec conds

/-- `extractDescriptionForCondition(conditionName, lines)` from
`api-server.js`: the first line containing the name (case-sensitively) whose
immediate successor is non-blank and free of the literal `probability` gives
that successor, trimmed; otherwise a fixed sentence. -/
def extractDescriptionForCondition (name : String) : List (List Char) → String
  | l :: l2 :: ls =>
    if occursIn name.data l && !occursIn "probability".data l2 &&
        !(trimL l2).isEmpty then
      strOf (trimL l2)
    else extractDescriptionForCondition name (l2 :: ls)
  | _ => "No detailed description available"

/-- `condition.split(w)[0]`: the text before the first occurrence of the
(lower-case) literal `w`; the whole text when `w` does not occur. -/
def splitHead (pat : List Char) : List Char → List Char
  | [] => []
  | c :: cs =>
    if List.isPrefixOf pat (c :: cs) then []
    else c :: splitHead pat cs

/-- `condition.replace(/^[*•-]\s+/, '')`: a bullet must be followed by at
least one whitespace character to be stripped. -/
def stripLeadBullet (cs : List Char) : List Char :=
  match cs with
  | c :: rest =>
    if (c = '*' ∨ c = '•' ∨ c = '-') && !(rest.takeWhile isWs).isEmpty then
      rest.dropWhile isWs
    else cs
  | [] => []

/-- `condition.replace(/^\d+\.\s+/, '')`. -/
def stripLeadNum (cs : List Char) : List Char :=
  let ds := cs.takeWhile isDigitCh
  if ds.isEmpty then cs
  else
    match cs.dropWhile isDigitCh with
    | '.' :: rest =>
      if (rest.takeWhile isWs).isEmpty then cs else rest.dropWhile isWs
    | _ => cs

/-- Does the tail pattern `\s*[-:]\s*$` match this whole suffix? -/
def trailDCAt (cs : List Char) : Bool :=
  match cs.dropWhile isWs with
  | c :: rest => (c = '-' ∨ c = ':') && (rest.dropWhile isWs).isEmpty
  | [] => false

/-- `condition.replace(/\s*[-:]\s*$/, '')`: remove the leftmost suffix made
of spaces, one dash or colon, and spaces reaching the end. -/
def stripTrailDC : List Char → List Char
  | [] => []
  | c :: cs =>
    if trailDCAt (c :: cs) then []
    else c :: stripTrailDC cs

/-- The body of the aggressive fallback pass of `extractConditions`, applied
to one line: if the trimmed line mentions high/medium/low (case-insensitively,
in that priority), the text before the first occurrence of the lower-case
literal becomes the condition name after bullet/number/trailing-separator
cleanup; an empty cleaned name produces nothing. -/
def aggressiveLine (l : List Char) : Option Cond :=
  let t := trimL l
  if lcHas t "high" || lcHas t "medium" || lcHas t "low" then
    let pr : String :=
      if lcHas t "high" then "High"
      else if lcHas t "medium" then "Medium" else "Low"
    let base : List Char :=
      if lcHas t "high" then splitHead "high".data t
      else if lcHas t "medium" then splitHead "medium".data t
      else splitHead "low".data t
    let name := trimL (stripTrailDC (stripLeadNum (stripLeadBullet (trimL base))))
    if name.isEmpty then none
    else some ⟨strOf name, pr, "No detailed description available"⟩
  else none

/-- The sentinel condition returned when every extraction pass fails. -/
def sentinelCondition : Cond :=
  ⟨"Unspecified Condition", "Medium",
   "The AI response did not contain clearly formatted conditions. Please consult with a veterinarian for a proper diagnosis."⟩

/-- `extractConditions` up to (but excluding) the final sentinel fallback:
first pass, description pass, per-condition description fallback when no
description was found at all, then the aggressive pass when no condition was
found at all. -/
def conditionsBeforeFallback (s : String) : List Cond :=
  let lines := splitNl s.data
  let c1 := condPass lines false []
  let c2 := descPass lines false c1
  let c3 :=
    if !c2.isEmpty && c2.all (·.description = "") then
      c2.map (fun c =>
        { c with description := extractDescriptionForCondition c.condition lines })
    else c2
  if c3.isEmpty then lines.filterMap aggressiveLine else c3

/-- `extractConditions(aiResponse)` from `api-server.js`. -/
def extractConditions (s : String) : List Cond :=
  let cs := conditionsBeforeFallback s
  if cs.isEmpty then [sentinelCondition] else cs

/-! ## Generic-flow free-text sections (`api-server.js`) -/

/-- `line.match(/^#+\s+/)`: one or more `#` then at least one whitespace;
returns the text after the matched lead. -/
def hashLead (cs : List Char) : Option (List Char) :=
  if (cs.takeWhile (· = '#')).isEmpty then none
  else
    let rest := cs.dropWhile (· = '#')
    if (rest.takeWhile isWs).isEmpty then none else some (rest.dropWhile isWs)

/-- `line.match(/^#+\s+[A-Z]/)`: a markdown heading starting a new major
section. -/
def majorHeading (cs : List Char) : Bool :=
  match hashLead cs with
  | some (c :: _) => isUpperCh c
  | _ => false

/-- `^[*•-]\s+` with the rest of the line, when it matches. -/
def bulletWsRest : List Char → Option (List Char)
  | c :: rest =>
    if (c = '*' ∨ c = '•' ∨ c = '-') && !(rest.takeWhile isWs).isEmpty then
      some (rest.dropWhile isWs)
    else none
  | [] => none

/-- `line.match(/^\d+\.\s+/)`. -/
def numDotLead (cs : List Char) : Bool :=
  !(cs.takeWhile isDigitCh).isEmpty &&
  (match cs.dropWhile isDigitCh with
   | '.' :: rest => !(rest.takeWhile isWs).isEmpty
   | _ => false)

/-- Per-line formatting of a collected section line: bullets are normalized
to `• `, numbered lines are kept, a line starting with an upper-case letter
becomes a fresh paragraph, anything else is kept as is. -/
def fmtPiece (t : List Char) : List Char :=
  match bulletWsRest t with
  | some rest => '•' :: ' ' :: rest
  | none =>
    if numDotLead t then t
    else
      match t with
      | c :: _ => if isUpperCh c then '\n' :: t else t
      | [] => t

/-- The shared line-buffer state machine of the three free-text extractors:
a heading line (re)enters the section, pushing a `**…**` copy of itself when
it is a markdown heading; a new major heading ends the collection for good;
non-blank lines inside the section are formatted and collected. -/
def sectLoop (isHead isExit : List Char → Bool) :
    List (List Char) → Bool → List (List Char)
  | [], _ => []
  | l :: ls, inSec =>
    let t := trimL l
    if isHead t then
      match hashLead t with
      | some rest => ("**".data ++ rest ++ "**".data) :: sectLoop isHead isExit ls true
      | none => sectLoop isHead isExit ls true
    else if inSec && !t.isEmpty && isExit t then []
    else if inSec && !t.isEmpty then fmtPiece t :: sectLoop isHead isExit ls inSec
    else sectLoop isHead isExit ls inSec

/-- The lookahead `(?=\n\n|\n[A-Z#]|$)` of the regex fallbacks (under `/i`,
`[A-Z]` matches any ASCII letter). -/
def lookaheadOk : List Char → Bool
  | [] => true
  | '\n' :: '\n' :: _ => true
  | '\n' :: c :: _ => isLetterCh c || c = '#'
  | _ => false

/-- Lazy `([\s\S]+?)` before the lookahead: grow the capture one character at
a time until the lookahead holds. -/
def lazyCapture (acc : List Char) : List Char → Option (List Char)
  | [] => none
  | c :: rest =>
    if lookaheadOk rest then some (c :: acc).reverse
    else lazyCapture (c :: acc) rest

/-- `[:\s]+` then the lazy capture: when the separator run reaches the end of
the text, the regex backtracks and the capture takes the run's last
character; otherwise the capture starts after the full greedy run (and then
always succeeds, at the latest at the end of the text). -/
def colonWsTail (w rest : List Char) : Option (List Char) :=
  if rest.isEmpty then
    match w.reverse with
    | c :: _ :: _ => some [c]
    | _ => none
  else lazyCapture [] rest

/-- Leftmost search of a section regex fallback
`<key>[:\s]+([\s\S]+?)(?=\n\n|\n[A-Z#]|$)` given a matcher for the key. -/
def sectFallbackScan (keyAt : List Char → Option (List Char)) :
    List Char → Option (List Char)
  | [] => none
  | c :: rest =>
    match keyAt (c :: rest) with
    | some after =>
      let w := after.takeWhile (fun d => d = ':' || isWs d)
      let tail :=
        if w.isEmpty then none
        else colonWsTail w (after.dropWhile (fun d => d = ':' || isWs d))
      match tail with
      | some g => some g
      | none => sectFallbackScan keyAt rest
    | none => sectFallbackScan keyAt rest

/-- Key matcher for a plain case-insensitive literal. -/
def ciKeyAt (kw : String) (cs : List Char) : Option (List Char) :=
  if ciLeads kw cs then some (cs.drop kw.data.length) else none

/-- Key matcher for `long.term management` (the `.` matches any character
except a newline). -/
def longDotKeyAt (cs : List Char) : Option (List Char) :=
  if ciLeads "long" cs then
    match cs.drop 4 with
    | c :: rest =>
      if c ≠ '\n' && ciLeads "term management" rest then
        some (rest.drop "term management".data.length)
      else none
    | [] => none
  else none

/-- Heading trigger of `extractRecommendations`. -/
def recHead (t : List Char) : Bool :=
  lcHas t "recommendations" || lcHas t "advice for pet owner" ||
  lcHas t "advice to pet owner"

/-- Section-exit trigger of `extractRecommendations`. -/
def recExit (t : List Char) : Bool :=
  majorHeading t && !lcHas t "recommendation"

/-- The collected recommendation pieces for a whole response. -/
def recPieces (s : String) : List (List Char) :=
  sectLoop recHead recExit (splitNl s.data) false

/-- The professional note appended when the collected recommendations
mention neither consulting nor a veterinarian. -/
def importantNote : String :=
  "\n\n**Important Note:** This analysis is provided as guidance only. Please consult with a licensed veterinarian for proper diagnosis and treatment."

/-- Fallback sentence of `extractRecommendations`. -/
def recFallbackSentence : String :=
  "No specific recommendations provided. Please consult with a veterinarian for proper guidance based on your pet\x27s symptoms."

/-- `extractRecommendations(aiResponse)` from `api-server.js`. -/
def extractRecommendations (s : String) : String :=
  let pieces := recPieces s
  if !pieces.isEmpty then
    let joined := List.intercalate ['\n'] pieces
    if !lcHas joined "consult" && !lcHas joined "veterinarian" then
      strOf (joined ++ importantNote.data)
    else strOf joined
  else
    match sectFallbackScan (ciKeyAt "recommendations") s.data with
    | some g => strOf (trimL g)
    | none => recFallbackSentence

/-- Heading trigger of `extractDiagnosticTests`. -/
def diagHead (t : List Char) : Bool :=
  lcHas t "diagnostic tests" || lcHas t "potential tests" ||
  lcHas t "recommended tests"

/-- Section-exit trigger of `extractDiagnosticTests`. -/
def diagExit (t : List Char) : Bool :=
  majorHeading t && !lcHas t "test" && !lcHas t "diagnos"

/-- Fallback sentence of `extractDiagnosticTests`. -/
def diagFallbackSentence : String :=
  "No specific diagnostic tests provided. A veterinarian would determine appropriate tests based on physical examination."

/-- `extractDiagnosticTests(aiResponse)` from `api-server.js`. -/
def extractDiagnosticTests (s : String) : String :=
  let pieces := sectLoop diagHead diagExit (splitNl s.data) false
  if !pieces.isEmpty then strOf (List.intercalate ['\n'] pieces)
  else
    match sectFallbackScan (ciKeyAt "diagnostic tests") s.data with
    | some g => strOf (trimL g)
    | none => diagFallbackSentence

/-- Heading trigger of `extractLongTermManagement`. -/
def ltHead (t : List Char) : Bool :=
  lcHas t "long-term management" || lcHas t "long term management" ||
  lcHas t "ongoing care" || lcHas t "management considerations"

/-- Section-exit trigger of `extractLongTermManagement`. -/
def ltExit (t : List Char) : Bool :=
  majorHeading t && !lcHas t "management" && !lcHas t "care" &&
  !lcHas t "long-term"

/-- Fallback sentence of `extractLongTermManagement`. -/
def ltFallbackSentence : String :=
  "No specific long-term management information provided. A veterinarian would develop an appropriate long-term care plan based on diagnosis."

/-- `extractLongTermManagement(aiResponse)` from `api-server.js`. -/
def extractLongTermManagement (s : String) : String :=
  let pieces := sectLoop ltHead ltExit (splitNl s.data) false
  if !pieces.isEmpty then strOf (List.intercalate ['\n'] pieces)
  else
    match sectFallbackScan longDotKeyAt s.data with
    | some g => strOf (trimL g)
    | none => ltFallbackSentence

/-! ## Clinical-flow parser (`FillupForm`: `parseResponse`, `handleSubmit`) -/

/-- A clinical-flow condition `{name, severity}`. -/
structure ClinCond where
  name : String
  severity : String
deriving DecidableEq, Repr

/-- The clinical-flow `AnalysisResult` record. -/
structure AnalysisResult where
  conditions : List ClinCond
  assessment : String
  diagnostics : String
  homeCare : String
  vetCareIndicators : String
  rawResponse : String
deriving DecidableEq, Repr

/-- Suffix just after the first case-insensitive occurrence of `kw`, when
there is one. -/
def ciFind (kw : String) : List Char → Option (List Char)
  | [] => if kw.data.isEmpty then some [] else none
  | c :: rest =>
    if ciLeads kw (c :: rest) then some ((c :: rest).drop kw.data.length)
    else ciFind kw rest

/-- Characters up to (excluding) the first case-insensitive occurrence of
`stopKw`; the whole list when it does not occur — the lazy
`([\s\S]*?)(?=STOP|$)` capture of the section regexes. -/
def captureUpTo (stopKw : String) : List Char → List Char
  | [] => []
  | c :: rest =>
    if ciLeads stopKw (c :: rest) then []
    else c :: captureUpTo stopKw rest

/-- A free-text section of `parseResponse`: empty string when the heading is
absent or the captured group is empty (JavaScript truthiness of `match[1]`),
the trimmed capture otherwise. -/
def sectText (kw stopKw : String) (cs : List Char) : String :=
  match ciFind kw cs with
  | some suffix =>
    let g := captureUpTo stopKw suffix
    if g.isEmpty then "" else strOf (trimL g)
  | none => ""

/-- The final section of `parseResponse` (no stop keyword, capture to the
end of the text). -/
def sectTextEnd (kw : String) (cs : List Char) : String :=
  match ciFind kw cs with
  | some suffix => if suffix.isEmpty then "" else strOf (trimL suffix)
  | none => ""

/-- One application of `line.replace(/^\d+\.\s*|^-\s*|^•\s*/g, '')`: the
anchored alternation fires at most once, at the start of the line. -/
def stripNumBulletClin (cs : List Char) : List Char :=
  if !(cs.takeWhile isDigitCh).isEmpty then
    match cs.dropWhile isDigitCh with
    | '.' :: rest => rest.dropWhile isWs
    | _ => cs
  else
    match cs with
    | '-' :: rest => rest.dropWhile isWs
    | '•' :: rest => rest.dropWhile isWs
    | _ => cs

/-- The alternation `(Mild|Moderate|Serious|Emergency)` under `/i`, matched
against the start of `r` and — because the paren form needs a closing
bracket — only accepted when `)` follows; captures the word in its original
casing. -/
def sevWordParen (r : List Char) : Option (List Char) :=
  if ciLeads "mild" r && (r.drop 4).head? = some ')' then some (r.take 4)
  else if ciLeads "moderate" r && (r.drop 8).head? = some ')' then some (r.take 8)
  else if ciLeads "serious" r && (r.drop 7).head? = some ')' then some (r.take 7)
  else if ciLeads "emergency" r && (r.drop 9).head? = some ')' then some (r.take 9)
  else none

/-- `\s*\((Mild|Moderate|Serious|Emergency)\)` probe at the current
position. -/
def sevParenProbe (cs : List Char) : Option (List Char) :=
  match cs.dropWhile isWs with
  | '(' :: r => sevWordParen r
  | _ => none

/-- Lazy `(.*?)` of `/(.*?)\s*\((Mild|Moderate|Serious|Emergency)\)/i`: the
group may be empty and grows one (non-newline) character at a time.  The
probe is checked before consuming (it never succeeds on an empty
remainder). -/
def sevParenScan (acc : List Char) : List Char → Option (List Char × List Char)
  | [] => none
  | c :: rest =>
    match sevParenProbe (c :: rest) with
    | some w => some (acc.reverse, w)
    | none => if c = '\n' then none else sevParenScan (c :: acc) rest

/-- The bare severity alternation under `/i` (no closing requirement). -/
def sevWordBare (r : List Char) : Option (List Char) :=
  if ciLeads "mild" r then some (r.take 4)
  else if ciLeads "moderate" r then some (r.take 8)
  else if ciLeads "serious" r then some (r.take 7)
  else if ciLeads "emergency" r then some (r.take 9)
  else none

/-- `\s*[:-]\s*(Mild|Moderate|Serious|Emergency)` probe at the current
position. -/
def sevColonProbe (cs : List Char) : Option (List Char) :=
  match cs.dropWhile isWs with
  | c :: r => if c = ':' ∨ c = '-' then sevWordBare (r.dropWhile isWs) else none
  | [] => none

/-- Lazy `(.*?)` of `/(.*?)\s*[:-]\s*(Mild|Moderate|Serious|Emergency)/i`;
same shape as `sevParenScan`. -/
def sevColonScan (acc : List Char) : List Char → Option (List Char × List Char)
  | [] => none
  | c :: rest =>
    match sevColonProbe (c :: rest) with
    | some w => some (acc.reverse, w)
    | none => if c = '\n' then none else sevColonScan (c :: acc) rest

/-- Parsing of one conditions-section line in `parseResponse`: strip leading
numbering/bullet, then try the parenthesized severity, the colon/dash
severity, and finally the `Not specified` default. -/
def parseCondLine (line : List Char) : ClinCond :=
  let cleanLine := trimL (stripNumBulletClin line)
  match sevParenScan [] cleanLine with
  | some (n, w) => ⟨strOf (trimL n), strOf w⟩
  | none =>
    match sevColonScan [] cleanLine with
    | some (n, w) => ⟨strOf (trimL n), strOf w⟩
    | none => ⟨strOf cleanLine, "Not specified"⟩

/-- `parseResponse(text)` from the clinical-flow form component. -/
def parseResponse (text : String) : AnalysisResult :=
  let cs := text.data
  let conditions :=
    match ciFind "possible conditions:" cs with
    | some suffix =>
      let g := captureUpTo "clinical assessment:" suffix
      if g.isEmpty then []
      else
        ((splitNl (trimL g)).filter (fun l => !(trimL l).isEmpty)).map parseCondLine
    | none => []
  { conditions := conditions
    assessment := sectText "clinical assessment:" "recommended diagnostics:" cs
    diagnostics := sectText "recommended diagnostics:" "home care recommendations:" cs
    homeCare := sectText "home care recommendations:" "veterinary care indicators:" cs
    vetCareIndicators := sectTextEnd "veterinary care indicators:" cs
    rawResponse := text }

/-! ### Pre-parse formatting applied by `handleSubmit` before `parseResponse`

Each global regex replacement is embedded with an explicit fuel argument (one
unit per processed character position, so the list length is always enough
fuel). -/

/-- Lazy close of `/\*\*(.*?)\*\*/`: content (possibly empty, newline-free)
up to the first following `**`. -/
def boldClose (acc : List Char) : List Char → Option (List Char × List Char)
  | '*' :: '*' :: after => some (acc.reverse, after)
  | c :: rest => if c = '\n' then none else boldClose (c :: acc) rest
  | [] => none

/-- `text.replace(/\*\*(.*?)\*\*/g, '$1')`. -/
def replaceBoldFuel : Nat → List Char → List Char
  | 0, cs => cs
  | _ + 1, [] => []
  | n + 1, '*' :: '*' :: rest =>
    match boldClose [] rest with
    | some (content, after) => content ++ replaceBoldFuel n after
    | none => '*' :: replaceBoldFuel n ('*' :: rest)
  | n + 1, c :: rest => c :: replaceBoldFuel n rest

/-- Lazy close of `/\*(.*?)\*/`. -/
def italClose (acc : List Char) : List Char → Option (List Char × List Char)
  | '*' :: after => some (acc.reverse, after)
  | c :: rest => if c = '\n' then none else italClose (c :: acc) rest
  | [] => none

/-- `text.replace(/\*(.*?)\*/g, '$1')`. -/
def replaceItalFuel : Nat → List Char → List Char
  | 0, cs => cs
  | _ + 1, [] => []
  | n + 1, '*' :: rest =>
    match italClose [] rest with
    | some (content, after) => content ++ replaceItalFuel n after
    | none => '*' :: replaceItalFuel n rest
  | n + 1, c :: rest => c :: replaceItalFuel n rest

/-- `text.replace(/\n\n+/g, '\n')`: collapse maximal runs of two or more
newlines. -/
def collapseNlFuel : Nat → List Char → List Char
  | 0, cs => cs
  | n + 1, '\n' :: '\n' :: rest => '\n' :: collapseNlFuel n (rest.dropWhile (· = '\n'))
  | n + 1, c :: rest => c :: collapseNlFuel n rest
  | _ + 1, [] => []

/-- Index of the last `'\n'` in a list, when there is one. -/
def lastNlIdx (run : List Char) : Option Nat :=
  (run.reverse.findIdx? (· = '\n')).map (fun k => run.length - 1 - k)

/-- `text.replace(/\s+\n/g, '\n')`: at a whitespace run, the greedy `\s+`
backtracks so the final `\n` of the pattern lands on the run's last newline
(which must not be the run's first character). -/
def wsBeforeNlFuel : Nat → List Char → List Char
  | 0, cs => cs
  | _ + 1, [] => []
  | n + 1, c :: rest =>
    if isWs c then
      let run := (c :: rest).takeWhile isWs
      match lastNlIdx run with
      | some j =>
        if 1 ≤ j then '\n' :: wsBeforeNlFuel n ((c :: rest).drop (j + 1))
        else c :: wsBeforeNlFuel n rest
      | none => c :: wsBeforeNlFuel n rest
    else c :: wsBeforeNlFuel n rest

/-- `text.replace(/\n\s+/g, '\n')`. -/
def nlAfterWsFuel : Nat → List Char → List Char
  | 0, cs => cs
  | _ + 1, [] => []
  | n + 1, '\n' :: rest =>
    if (rest.takeWhile isWs).isEmpty then '\n' :: nlAfterWsFuel n rest
    else '\n' :: nlAfterWsFuel n (rest.dropWhile isWs)
  | n + 1, c :: rest => c :: nlAfterWsFuel n rest

/-- The formatting chain `handleSubmit` applies to the model text before
parsing: strip `**bold**`, strip `*italic*`, collapse blank lines, remove
whitespace around line breaks, trim. -/
def formatText (s : String) : String :=
  let a := replaceBoldFuel s.data.length s.data
  let b := replaceItalFuel a.length a
  let c := collapseNlFuel b.length b
  let d := wsBeforeNlFuel c.length c
  let e := nlAfterWsFuel d.length d
  strOf (trimL e)

/-- The result record `handleSubmit` stores for a raw model output `t`:
`parseResponse` applied to the formatted text. -/
def clinicalAnalysisOf (t : String) : AnalysisResult :=
  parseResponse (formatText t)

/-! ## ClinicFinder (`NearbyVetsMap.tsx`)

The distance arithmetic uses JavaScript floating-point `Math` functions; it
is modelled here over the reals. -/

/-- `deg2rad` from `NearbyVetsMap.tsx`. -/
noncomputable def deg2rad (deg : ℝ) : ℝ := deg * (Real.pi / 180)

/-- `Math.atan2(y, x)` over the reals (standard definition by quadrant). -/
noncomputable def atan2 (y x : ℝ) : ℝ :=
  open Classical in
  if 0 < x then Real.arctan (y / x)
  else if x < 0 ∧ 0 ≤ y then Real.arctan (y / x) + Real.pi
  else if x < 0 ∧ y < 0 then Real.arctan (y / x) - Real.pi
  else if x = 0 ∧ 0 < y then Real.pi / 2
  else if x = 0 ∧ y < 0 then -(Real.pi / 2)
  else 0

/-- `Math.round(x)` (round half up) over the reals. -/
noncomputable def jsRound (x : ℝ) : ℝ := (⌊x + 1 / 2⌋ : ℤ)

/-- `calculateDistance(lat1, lon1, lat2, lon2)` from `NearbyVetsMap.tsx`:
haversine with `R = 6371` km, rounded to one decimal place. -/
noncomputable def calculateDistance (lat1 lon1 lat2 lon2 : ℝ) : ℝ :=
  let R : ℝ := 6371
  let dLat := deg2rad (lat2 - lat1)
  let dLon := deg2rad (lon2 - lon1)
  let a := Real.sin (dLat / 2) * Real.sin (dLat / 2) +
    Real.cos (deg2rad lat1) * Real.cos (deg2rad lat2) *
      Real.sin (dLon / 2) * Real.sin (dLon / 2)
  let c := 2 * atan2 (Real.sqrt a) (Real.sqrt (1 - a))
  let distance := R * c
  jsRound (distance * 10) / 10

/-- A clinic entry as assembled by `findNearbyVets`. -/
structure VetClinic where
  id : String
  name : String
  lat : ℝ
  lon : ℝ
  address : String
  distance : ℝ

/-- A raw geodata element; `isVetNode` stands for the source's
`element.type === 'node' && element.tags.amenity === 'veterinary'` filter. -/
structure OverpassElement where
  isVetNode : Bool
  id : String
  name : String
  lat : ℝ
  lon : ℝ
  address : String

/-- `clinics.sort((a, b) => (a.distance || 0) - (b.distance || 0))`. -/
noncomputable def sortClinics (l : List VetClinic) : List VetClinic :=
  open Classical in
  l.mergeSort (fun a b => decide (a.distance ≤ b.distance))

/-- The clinic list built by `findNearbyVets`: filter the veterinary nodes,
attach the haversine distance from the user's coordinate, sort by
distance. -/
noncomputable def processClinics (userLat userLon : ℝ)
    (els : List OverpassElement) : List VetClinic :=
  sortClinics ((els.filter (·.isVetNode)).map (fun e =>
    ⟨e.id, e.name, e.lat, e.lon, e.address,
     calculateDistance userLat userLon e.lat e.lon⟩))

/-! ## Specification-worded counterparts used for the corrected claims -/

/-- ASCII upper-casing of one character. -/
def upChar (c : Char) : Char :=
  if 'a' ≤ c ∧ c ≤ 'z' then Char.ofNat (c.toNat - 32) else c

/-- Capitalize the first character (canonical tag of a vocabulary word). -/
def upFirst : List Char → List Char
  | [] => []
  | c :: rest => upChar c :: rest

/-- The aggressive fallback rule for one line, written after the amended
specification wording: choose the first vocabulary word (high, medium, low)
contained case-insensitively in the trimmed line; the name is the cleaned
text before the first occurrence of the *lower-case* literal — hence the
whole cleaned line (still containing the word) when the word occurs only in
other casings — and the tag is the canonical capitalized word.  An empty
cleaned name yields nothing. -/
def aggressiveLineAmended (l : List Char) : Option Cond :=
  let t := trimL l
  match ["high", "medium", "low"].find? (fun w => occursIn w.data (lcs t)) with
  | none => none
  | some w =>
    let name := trimL (stripTrailDC (stripLeadNum (stripLeadBullet (trimL (splitHead w.data t)))))
    if name.isEmpty then none
    else some ⟨strOf name, strOf (upFirst w.data), "No detailed description available"⟩

/-- The per-condition description fallback, written after the amended
specification wording: among the pairs of consecutive lines, the first whose
first component contains the name (case-sensitively) and whose second
component is non-blank and free of the literal `probability` contributes
that second component, trimmed. -/
def descFallbackAmended (name : String) (lines : List (List Char)) : String :=
  match (lines.zip lines.tail).find? (fun p =>
      occursIn name.data p.1 && !occursIn "probability".data p.2 &&
      !(trimL p.2).isEmpty) with
  | some p => strOf (trimL p.2)
  | none => "No detailed description available"

/-- The section keywords the generic-flow free-text extractors react to
(`term management` covers the two long-term heading variants and the dotted
`long.term management` fallback pattern). -/
def genericFlowKeywords : List String :=
  ["recommendations", "advice for pet owner", "advice to pet owner",
   "diagnostic tests", "potential tests", "recommended tests",
   "term management", "ongoing care", "management considerations"]

/-- A response free of every generic-flow section keyword
(case-insensitively). -/
def keywordFreeGeneric (s : String) : Bool :=
  genericFlowKeywords.all (fun kw => !occursIn kw.data (lcs s.data))

/-! ## Support lemmas -/

theorem splitNl_ne_nil : ∀ cs : List Char, splitNl cs ≠ [] := by
  intro cs
  induction cs with
  | nil => simp [splitNl]
  | cons c cs ih =>
    simp only [splitNl]
    by_cases h : c = '\n'
    · simp [h]
    · simp only [h, if_false]
      cases hs : splitNl cs <;> simp

theorem splitNl_head_prefix :
    ∀ (cs : List Char) (h : List Char) (t : List (List Char)),
      splitNl cs = h :: t → h <+: cs := by
  intro cs
  induction cs with
  | nil =>
    intro h t heq
    simp [splitNl] at heq
    simp [heq.1]
  | cons c cs ih =>
    intro h t heq
    by_cases hc : c = '\n'
    · simp [splitNl, hc] at heq
      simp [hc, heq.1]
    · simp only [splitNl, hc, if_false] at heq
      cases hs : splitNl cs with
      | nil => exact absurd hs (splitNl_ne_nil cs)
      | cons hd tl =>
        rw [hs] at heq
        obtain ⟨h1, _⟩ := List.cons.inj heq
        subst h1
        exact List.cons_prefix_cons.mpr ⟨rfl, ih hd tl hs⟩

theorem splitNl_mem_sub :
    ∀ (cs : List Char) (l : List Char), l ∈ splitNl cs → l <:+: cs := by
  intro cs
  induction cs with
  | nil =>
    intro l hl
    simp [splitNl] at hl
    simp [hl]
  | cons c cs ih =>
    intro l hl
    by_cases hc : c = '\n'
    · simp only [splitNl, hc, if_true] at hl
      rcases List.mem_cons.mp hl with h | h
      · simp [h]
      · exact List.infix_cons (ih l h)
    · simp only [splitNl, hc, if_false] at hl
      cases hs : splitNl cs with
      | nil => exact absurd hs (splitNl_ne_nil cs)
      | cons hd tl =>
        rw [hs] at hl
        rcases List.mem_cons.mp hl with h | h
        · subst h
          exact (List.cons_prefix_cons.mpr
            ⟨rfl, splitNl_head_prefix cs hd tl hs⟩).isInfix
        · exact List.infix_cons (ih l (hs ▸ List.mem_cons_of_mem hd h))

theorem trimL_sub (cs : List Char) : trimL cs <:+: cs := by
  unfold trimL
  have h1 : cs.dropWhile isWs <:+ cs := List.dropWhile_suffix isWs
  have h2 : (cs.dropWhile isWs).reverse.dropWhile isWs <:+
      (cs.dropWhile isWs).reverse := List.dropWhile_suffix isWs
  have h3 : ((cs.dropWhile isWs).reverse.dropWhile isWs).reverse <+:
      cs.dropWhile isWs := by
    rw [← List.reverse_suffix]
    simpa using h2
  exact h3.isInfix.trans h1.isInfix

theorem occursIn_iff (pat cs : List Char) :
    occursIn pat cs = true ↔ pat <:+: cs := by
  induction cs with
  | nil =>
    simp [occursIn, List.isPrefixOf_iff_prefix]
  | cons c cs ih =>
    simp [occursIn, List.isPrefixOf_iff_prefix, ih, List.infix_cons_iff]

theorem lcs_mono_sub {l m : List Char} (h : l <:+: m) : lcs l <:+: lcs m :=
  List.IsInfix.map lcChar h

theorem lcHas_false_of_sub {l m : List Char} {kw : String}
    (hm : lcHas m kw = false) (h : l <:+: m) : lcHas l kw = false := by
  by_contra hb
  have hl : lcHas l kw = true := by
    cases hv : lcHas l kw
    · exact absurd hv hb
    · rfl
  have : kw.data <:+: lcs l := (occursIn_iff _ _).mp hl
  have : kw.data <:+: lcs m := this.trans (lcs_mono_sub h)
  have : lcHas m kw = true := (occursIn_iff _ _).mpr this
  rw [this] at hm
  simp at hm

theorem keywordFree_line {s : String} {kw : String} {l : List Char}
    (h : keywordFreeGeneric s = true) (hkw : kw ∈ genericFlowKeywords)
    (hl : l ∈ splitNl s.data) : lcHas (trimL l) kw = false := by
  have hs : lcHas s.data kw = false := by
    have := (List.all_eq_true.mp h) kw hkw
    simpa [lcHas] using this
  exact lcHas_false_of_sub hs ((trimL_sub l).trans (splitNl_mem_sub _ _ hl))

theorem lcHas_false_of_inner {t : List Char} {big inner : String}
    (hinf : inner.data <:+: big.data) (h : lcHas t inner = false) :
    lcHas t big = false := by
  by_contra hb
  have hbig : lcHas t big = true := by
    cases hv : lcHas t big
    · exact absurd hv hb
    · rfl
  have h1 : big.data <:+: lcs t := (occursIn_iff _ _).mp hbig
  have h2 : lcHas t inner = true := (occursIn_iff _ _).mpr (hinf.trans h1)
  rw [h2] at h
  simp at h

theorem lcs_cons (c : Char) (cs : List Char) :
    lcs (c :: cs) = lcChar c :: lcs cs := rfl

theorem sectLoop_false_nil (isHead isExit : List Char → Bool) :
    ∀ lines : List (List Char), (∀ l ∈ lines, isHead (trimL l) = false) →
      sectLoop isHead isExit lines false = [] := by
  intro lines
  induction lines with
  | nil => intro _; rfl
  | cons l ls ih =>
    intro h
    have h0 : isHead (trimL l) = false := h l (List.mem_cons_self l ls)
    simp only [sectLoop, h0, if_false, Bool.false_and]
    exact ih (fun x hx => h x (List.mem_cons_of_mem l hx))

theorem occursIn_cons_split {pat : List Char} {c : Char} {cs : List Char}
    (h : occursIn pat (lcs (c :: cs)) = false) :
    List.isPrefixOf pat (lcs (c :: cs)) = false ∧
      occursIn pat (lcs cs) = false := by
  rw [lcs_cons, occursIn, Bool.or_eq_false_iff] at h
  exact ⟨h.1, h.2⟩

theorem ciKey_scan_none (kw : String) :
    ∀ cs : List Char, occursIn kw.data (lcs cs) = false →
      sectFallbackScan (ciKeyAt kw) cs = none := by
  intro cs
  induction cs with
  | nil => intro _; rfl
  | cons c rest ih =>
    intro h
    obtain ⟨h1, h2⟩ := occursIn_cons_split h
    have hlead : ciLeads kw (c :: rest) = false := h1
    simp only [sectFallbackScan, ciKeyAt, hlead, if_false]
    exact ih h2

theorem longDot_scan_none :
    ∀ cs : List Char, occursIn "term management".data (lcs cs) = false →
      sectFallbackScan longDotKeyAt cs = none := by
  intro cs
  induction cs with
  | nil => intro _; rfl
  | cons c rest ih =>
    intro h
    obtain ⟨_, h2⟩ := occursIn_cons_split h
    have hkey : longDotKeyAt (c :: rest) = none := by
      unfold longDotKeyAt
      by_cases h4 : ciLeads "long" (c :: rest) = true
      · simp only [h4, if_true]
        cases hd : (c :: rest).drop 4 with
        | nil => rfl
        | cons d r2 =>
          have hsuf : r2 <:+ c :: rest := by
            have hs1 : d :: r2 <:+ c :: rest := hd ▸ List.drop_suffix 4 (c :: rest)
            exact (List.drop_suffix 1 (d :: r2)).trans hs1
          by_cases h5 : ciLeads "term management" r2 = true
          · exfalso
            have hp : "term management".data <+: lcs r2 :=
              List.isPrefixOf_iff_prefix.mp h5
            have : "term management".data <:+: lcs (c :: rest) :=
              hp.isInfix.trans (lcs_mono_sub hsuf.isInfix)
            have := (occursIn_iff _ _).mpr this
            rw [h] at this
            simp at this
          · simp [h5]
      · simp [h4]
    simp only [sectFallbackScan, hkey]
    exact ih h2

/-! ## Claim theorems -/

/-- C1: in the generic-analysis flow, `extractConditions` never returns an
empty list: whenever the strict per-line rules and the aggressive fallback
pass together produce no condition, the single sentinel condition (name
`Unspecified Condition`, probability `Medium`, explanatory fallback
description) is returned instead. -/
theorem extractConditions_never_empty (s : String) :
    extractConditions s ≠ [] ∧
      (conditionsBeforeFallback s = [] →
        extractConditions s = [sentinelCondition]) := by
  unfold extractConditions
  constructor
  · cases h : conditionsBeforeFallback s <;> simp [h]
  · intro h
    simp [h]

/-- Witness for C1 at the empty response: no pass yields a condition and the
sentinel is returned. -/
theorem extractConditions_never_empty_witness :
    conditionsBeforeFallback "" = [] ∧ extractConditions "" ≠ [] ∧
      extractConditions "" = [sentinelCondition] :=
  ⟨by decide, (extractConditions_never_empty "").1,
    (extractConditions_never_empty "").2 (by decide)⟩

/-- C2 counterexample: on the empty response, the clinical-flow
`parseResponse` leaves all four free-text fields as the empty string, not as
a documented non-empty fallback sentence. -/
theorem parseResponse_blank_fields_on_empty :
    (parseResponse "").assessment = "" ∧ (parseResponse "").diagnostics = "" ∧
      (parseResponse "").homeCare = "" ∧
      (parseResponse "").vetCareIndicators = "" := by decide

/-- C2 (amended): the generic-flow extractors return their documented
non-empty fallback sentences on any response free of their section keywords
(the clinical-flow `parseResponse` instead returns empty strings, as the
counterexample shows). -/
theorem generic_extractors_fallback_on_keyword_free (s : String)
    (h : keywordFreeGeneric s = true) :
    extractRecommendations s = recFallbackSentence ∧
      extractDiagnosticTests s = diagFallbackSentence ∧
      extractLongTermManagement s = ltFallbackSentence := by
  have hall := List.all_eq_true.mp h
  have hkw : ∀ kw ∈ genericFlowKeywords, occursIn kw.data (lcs s.data) = false := by
    intro kw hkwm
    have := hall kw hkwm
    simpa using this
  have hline : ∀ kw ∈ genericFlowKeywords, ∀ l ∈ splitNl s.data,
      lcHas (trimL l) kw = false :=
    fun kw hkwm l hl => keywordFree_line h hkwm hl
  refine ⟨?_, ?_, ?_⟩
  · have hrec : ∀ l ∈ splitNl s.data, recHead (trimL l) = false := by
      intro l hl
      have h1 := hline "recommendations" (by simp [genericFlowKeywords]) l hl
      have h2 := hline "advice for pet owner" (by simp [genericFlowKeywords]) l hl
      have h3 := hline "advice to pet owner" (by simp [genericFlowKeywords]) l hl
      simp [recHead, h1, h2, h3]
    have hp : recPieces s = [] := sectLoop_false_nil _ _ _ hrec
    have hscan := ciKey_scan_none "recommendations" s.data
      (hkw "recommendations" (by simp [genericFlowKeywords]))
    simp [extractRecommendations, hp, hscan]
  · have hdiag : ∀ l ∈ splitNl s.data, diagHead (trimL l) = false := by
      intro l hl
      have h1 := hline "diagnostic tests" (by simp [genericFlowKeywords]) l hl
      have h2 := hline "potential tests" (by simp [genericFlowKeywords]) l hl
      have h3 := hline "recommended tests" (by simp [genericFlowKeywords]) l hl
      simp [diagHead, h1, h2, h3]
    have hp : sectLoop diagHead diagExit (splitNl s.data) false = [] :=
      sectLoop_false_nil _ _ _ hdiag
    have hscan := ciKey_scan_none "diagnostic tests" s.data
      (hkw "diagnostic tests" (by simp [genericFlowKeywords]))
    simp [extractDiagnosticTests, hp, hscan]
  · have hlt : ∀ l ∈ splitNl s.data, ltHead (trimL l) = false := by
      intro l hl
      have htm := hline "term management" (by simp [genericFlowKeywords]) l hl
      have h1 : lcHas (trimL l) "long-term management" = false :=
        lcHas_false_of_inner ⟨"long-".data, [], by decide⟩ htm
      have h2 : lcHas (trimL l) "long term management" = false :=
        lcHas_false_of_inner ⟨"long ".data, [], by decide⟩ htm
      have h3 := hline "ongoing care" (by simp [genericFlowKeywords]) l hl
      have h4 := hline "management considerations" (by simp [genericFlowKeywords]) l hl
      simp [ltHead, h1, h2, h3, h4]
    have hp : sectLoop ltHead ltExit (splitNl s.data) false = [] :=
      sectLoop_false_nil _ _ _ hlt
    have hscan := longDot_scan_none s.data
      (hkw "term management" (by simp [genericFlowKeywords]))
    simp [extractLongTermManagement, hp, hscan]

/-- Witness for C2 (amended) at the empty response. -/
theorem generic_extractors_fallback_witness :
    keywordFreeGeneric "" = true ∧
      extractRecommendations "" = recFallbackSentence ∧
      extractDiagnosticTests "" = diagFallbackSentence ∧
      extractLongTermManagement "" = ltFallbackSentence :=
  ⟨by decide, (generic_extractors_fallback_on_keyword_free "" (by decide)).1,
    (generic_extractors_fallback_on_keyword_free "" (by decide)).2.1,
    (generic_extractors_fallback_on_keyword_free "" (by decide)).2.2⟩

/-- C4: inside a recognized conditions section, the markdown table row
`| Otitis Externa | High |` is extracted by the table rule with name
`Otitis Externa` and tag `High`, and the aggressive bare-substring fallback
adds nothing: the result is exactly that one condition. -/
theorem table_row_priority_concrete :
    extractConditions "POSSIBLE CONDITIONS:\n| Otitis Externa | High |" =
      [⟨"Otitis Externa", "High", "No detailed description available"⟩] := by
  decide

/-- C7 counterexample: `handleSubmit` formats the model text before parsing
(the markdown emphasis of `**A**` is stripped), so the stored `rawResponse`
differs from the original model output. -/
theorem rawResponse_not_original_text :
    (clinicalAnalysisOf "**A**").rawResponse ≠ "**A**" := by decide

/-- C7 (amended): `parseResponse` itself preserves its input character for
character in `rawResponse`; the clinical flow feeds it the formatted (not the
raw) model text. -/
theorem parseResponse_preserves_input (text : String) :
    (parseResponse text).rawResponse = text := rfl

/-- A case-insensitive prefix determines the lower-casing of the matched
segment. -/
theorem take_of_ciLeads {pat : String} {r : List Char} (h : ciLeads pat r = true) :
    lcs (r.take pat.data.length) = pat.data := by
  have hp : pat.data <+: lcs r := List.isPrefixOf_iff_prefix.mp h
  obtain ⟨t, ht⟩ := hp
  have hm : lcs (r.take pat.data.length) = (lcs r).take pat.data.length :=
    List.map_take lcChar r pat.data.length
  rw [hm, ← ht, List.take_left]

/-- String form of `take_of_ciLeads`. -/
theorem sevTake (pat : String) (r : List Char) (n : Nat)
    (h : ciLeads pat r = true) (hn : pat.data.length = n) :
    strOf (lcs (r.take n)) = pat := by
  subst hn
  rw [strOf, take_of_ciLeads h]

theorem sevWordParen_lc {r w : List Char} (h : sevWordParen r = some w) :
    strOf (lcs w) ∈ (["mild", "moderate", "serious", "emergency"] : List String) := by
  unfold sevWordParen at h
  split_ifs at h with h1 h2 h3 h4
  · rw [Bool.and_eq_true] at h1
    obtain ⟨hl, -⟩ := h1
    obtain rfl := Option.some.inj h
    rw [sevTake "mild" r 4 hl (by decide)]
    decide
  · rw [Bool.and_eq_true] at h2
    obtain ⟨hl, -⟩ := h2
    obtain rfl := Option.some.inj h
    rw [sevTake "moderate" r 8 hl (by decide)]
    decide
  · rw [Bool.and_eq_true] at h3
    obtain ⟨hl, -⟩ := h3
    obtain rfl := Option.some.inj h
    rw [sevTake "serious" r 7 hl (by decide)]
    decide
  · rw [Bool.and_eq_true] at h4
    obtain ⟨hl, -⟩ := h4
    obtain rfl := Option.some.inj h
    rw [sevTake "emergency" r 9 hl (by decide)]
    decide

theorem sevWordBare_lc {r w : List Char} (h : sevWordBare r = some w) :
    strOf (lcs w) ∈ (["mild", "moderate", "serious", "emergency"] : List String) := by
  unfold sevWordBare at h
  split_ifs at h with h1 h2 h3 h4
  · obtain rfl := Option.some.inj h
    rw [sevTake "mild" r 4 h1 (by decide)]
    decide
  · obtain rfl := Option.some.inj h
    rw [sevTake "moderate" r 8 h2 (by decide)]
    decide
  · obtain rfl := Option.some.inj h
    rw [sevTake "serious" r 7 h3 (by decide)]
    decide
  · obtain rfl := Option.some.inj h
    rw [sevTake "emergency" r 9 h4 (by decide)]
    decide

theorem sevParenProbe_lc {cs w : List Char} (h : sevParenProbe cs = some w) :
    strOf (lcs w) ∈ (["mild", "moderate", "serious", "emergency"] : List String) := by
  unfold sevParenProbe at h
  split at h
  · exact sevWordParen_lc h
  · exact absurd h (by simp)

theorem sevColonProbe_lc {cs w : List Char} (h : sevColonProbe cs = some w) :
    strOf (lcs w) ∈ (["mild", "moderate", "serious", "emergency"] : List String) := by
  unfold sevColonProbe at h
  split at h
  · split at h
    · exact sevWordBare_lc h
    · exact absurd h (by simp)
  · exact absurd h (by simp)

theorem sevParenScan_cons (acc : List Char) (c : Char) (rest : List Char) :
    sevParenScan acc (c :: rest) =
      match sevParenProbe (c :: rest) with
      | some w => some (acc.reverse, w)
      | none => if c = '\n' then none else sevParenScan (c :: acc) rest := rfl

theorem sevColonScan_cons (acc : List Char) (c : Char) (rest : List Char) :
    sevColonScan acc (c :: rest) =
      match sevColonProbe (c :: rest) with
      | some w => some (acc.reverse, w)
      | none => if c = '\n' then none else sevColonScan (c :: acc) rest := rfl

theorem sevParenScan_lc :
    ∀ cs acc n w : List Char, sevParenScan acc cs = some (n, w) →
      strOf (lcs w) ∈ (["mild", "moderate", "serious", "emergency"] : List String) := by
  intro cs
  induction cs with
  | nil =>
    intro acc n w h
    rw [show sevParenScan acc [] = none from rfl] at h
    exact absurd h (by simp)
  | cons c rest ih =>
    intro acc n w h
    rw [sevParenScan_cons] at h
    split at h
    · next w' heq =>
      obtain ⟨-, rfl⟩ := Prod.mk.injEq .. ▸ Option.some.inj h
      exact sevParenProbe_lc heq
    · split at h
      · exact absurd h (by simp)
      · exact ih (c :: acc) n w h

theorem sevColonScan_lc :
    ∀ cs acc n w : List Char, sevColonScan acc cs = some (n, w) →
      strOf (lcs w) ∈ (["mild", "moderate", "serious", "emergency"] : List String) := by
  intro cs
  induction cs with
  | nil =>
    intro acc n w h
    rw [show sevColonScan acc [] = none from rfl] at h
    exact absurd h (by simp)
  | cons c rest ih =>
    intro acc n w h
    rw [sevColonScan_cons] at h
    split at h
    · next w' heq =>
      obtain ⟨-, rfl⟩ := Prod.mk.injEq .. ▸ Option.some.inj h
      exact sevColonProbe_lc heq
    · split at h
      · exact absurd h (by simp)
      · exact ih (c :: acc) n w h

theorem parseCondLine_severity (line : List Char) :
    strOf (lcs (parseCondLine line).severity.data) ∈
        (["mild", "moderate", "serious", "emergency"] : List String) ∨
      (parseCondLine line).severity = "Not specified" := by
  unfold parseCondLine
  dsimp only
  split
  · next n w heq => exact Or.inl (sevParenScan_lc _ _ _ _ heq)
  · split
    · next n w heq => exact Or.inl (sevColonScan_lc _ _ _ _ heq)
    · exact Or.inr rfl

/-- C3 counterexample: inside a recognized conditions section, the strict
table rule copies whatever word stands in the second column, so the generic
flow can yield a probability (`Banana`) outside the documented
`{High, Medium, Low}` vocabulary and the sentinel's `Medium`. -/
theorem generic_probability_outside_vocabulary :
    (extractConditions "possible conditions\n| Otitis | Banana |").map
        (fun c => c.probability) = ["Banana"] ∧
      ("Banana" : String) ∉
        (["High", "Medium", "Low", sentinelCondition.probability] : List String) := by
  decide

/-- C3 (amended): the clinical-flow `parseResponse` draws every severity it
yields from the clinical vocabulary up to letter case — the tag is captured
in the casing found in the text and matches Mild/Moderate/Serious/Emergency
case-insensitively — or it is exactly `Not specified`; in particular it is
never any casing of the generic-flow tags High/Medium/Low, so the vocabulary
isolation holds.  (The generic flow's strict rules, by contrast, copy
arbitrary words, as the counterexample shows.) -/
theorem clinical_severity_vocabulary (text : String) :
    ∀ c ∈ (parseResponse text).conditions,
      (strOf (lcs c.severity.data) ∈
          (["mild", "moderate", "serious", "emergency"] : List String) ∨
        c.severity = "Not specified") ∧
      strOf (lcs c.severity.data) ∉ (["high", "medium", "low"] : List String) := by
  intro c hc
  have hmem : ∃ l, c = parseCondLine l := by
    unfold parseResponse at hc
    dsimp only at hc
    split at hc
    · next suffix _ =>
      split at hc
      · exact absurd hc (by simp)
      · obtain ⟨l, -, hl⟩ := List.mem_map.mp hc
        exact ⟨l, hl.symm⟩
    · exact absurd hc (by simp)
  obtain ⟨l, rfl⟩ := hmem
  have hp := parseCondLine_severity l
  refine ⟨hp, ?_⟩
  rcases hp with h | h
  · simp only [List.mem_cons, List.mem_singleton, List.not_mem_nil, or_false] at h
    rcases h with h | h | h | h <;> rw [h] <;> decide
  · rw [h]
    decide

/-- Witness for C3 (amended): a concrete clinical parse whose single
condition carries severity `Mild`. -/
theorem clinical_severity_vocabulary_witness :
    (⟨"Fever", "Mild"⟩ : ClinCond) ∈
        (parseResponse "POSSIBLE CONDITIONS:\n1. Fever (Mild)").conditions ∧
      ((strOf (lcs (String.data "Mild")) ∈
          (["mild", "moderate", "serious", "emergency"] : List String) ∨
        ("Mild" : String) = "Not specified") ∧
        strOf (lcs (String.data "Mild")) ∉
          (["high", "medium", "low"] : List String)) :=
  ⟨by decide,
    clinical_severity_vocabulary "POSSIBLE CONDITIONS:\n1. Fever (Mild)"
      ⟨"Fever", "Mild"⟩ (by decide)⟩

/-- C5 counterexample: the aggressive pass splits on the lower-case literal
only, so for the line `Kidney Disease - High` (capitalized tag) the produced
name is the whole line, tag included — not `Kidney Disease` as the claim
states. -/
theorem aggressive_pass_keeps_capitalized_word :
    extractConditions "Kidney Disease - High" =
      [⟨"Kidney Disease - High", "High", "No detailed description available"⟩] ∧
      ("Kidney Disease - High" : String) ≠ "Kidney Disease" := by decide

/-- C5 (amended): the aggressive per-line rule picks the first of high,
medium, low contained case-insensitively in the trimmed line, takes the
text before the first occurrence of the *lower-case* literal (the whole
line, still containing the word, when the word occurs only in other
casings), cleans bullets/numbering/trailing separator, and tags with the
canonical capitalized word; proved as an equivalence between the source
translation and the amended-specification wording. -/
theorem aggressiveLine_eq_amended (l : List Char) :
    aggressiveLine l = aggressiveLineAmended l := by
  unfold aggressiveLine aggressiveLineAmended
  dsimp only
  have hH : strOf (upFirst "high".data) = "High" := by decide
  have hM : strOf (upFirst "medium".data) = "Medium" := by decide
  have hL : strOf (upFirst "low".data) = "Low" := by decide
  by_cases h1 : occursIn "high".data (lcs (trimL l)) = true
  · simp [List.find?, lcHas, h1, hH]
  · by_cases h2 : occursIn "medium".data (lcs (trimL l)) = true
    · simp [List.find?, lcHas, h1, h2, hM]
    · by_cases h3 : occursIn "low".data (lcs (trimL l)) = true
      · simp [List.find?, lcHas, h1, h2, h3, hL]
      · simp [List.find?, lcHas, h1, h2, h3]

/-- C6 counterexample: the simple description fallback only rejects a
following line containing the literal `probability`; a following line
containing the vocabulary word `High` is accepted, contrary to the claim. -/
theorem simple_fallback_takes_vocabulary_line :
    extractConditions "POSSIBLE CONDITIONS:\n1. Fever (High)\nHigh chance of infection" =
      [⟨"Fever", "High", "High chance of infection"⟩] ∧
      lcHas ("High chance of infection" : String).data "high" = true := by decide

/-- C6 (amended): when the dedicated description pass found nothing, each
condition receives the trimmed line immediately following the first line
that contains its name (case-sensitive substring) and whose immediate
successor is non-blank and free of the literal `probability`; conditions
without such an occurrence receive the fixed sentence.  Proved as an
equivalence between the source translation and the amended-specification
wording. -/
theorem extractDescription_eq_amended (name : String) :
    ∀ lines : List (List Char),
      extractDescriptionForCondition name lines = descFallbackAmended name lines := by
  intro lines
  induction lines with
  | nil => rfl
  | cons l ls ih =>
    cases ls with
    | nil => rfl
    | cons l2 ls2 =>
      by_cases h : (occursIn name.data l && !occursIn "probability".data l2 &&
          !(trimL l2).isEmpty) = true
      · simp [extractDescriptionForCondition, descFallbackAmended, List.find?, h]
      · have hx := ih
        rw [descFallbackAmended] at hx ⊢
        simp only [extractDescriptionForCondition, List.zip_cons_cons, List.find?,
          List.tail_cons, h] at hx ⊢
        simp only [Bool.and_eq_true] at h
        simp [List.zip, h, hx]

theorem lcs_append (a b : List Char) : lcs (a ++ b) = lcs a ++ lcs b :=
  List.map_append lcChar a b

/-- C10: when the line-buffer pass of `extractRecommendations` collected at
least one piece and the joined text mentions neither `consult` nor
`veterinarian` (case-insensitively), the result is the joined text with the
fixed `Important Note` disclaimer appended, so the result mentions a
veterinarian. -/
theorem recommendations_disclaimer_appended (s : String)
    (h1 : recPieces s ≠ [])
    (h2 : lcHas (List.intercalate ['\n'] (recPieces s)) "consult" = false)
    (h3 : lcHas (List.intercalate ['\n'] (recPieces s)) "veterinarian" = false) :
    extractRecommendations s =
      strOf (List.intercalate ['\n'] (recPieces s) ++ importantNote.data) ∧
      lcHas (extractRecommendations s).data "veterinarian" = true := by
  have hp : (recPieces s).isEmpty = false := by
    cases hq : recPieces s
    · exact absurd hq h1
    · rfl
  have heq : extractRecommendations s =
      strOf (List.intercalate ['\n'] (recPieces s) ++ importantNote.data) := by
    unfold extractRecommendations
    dsimp only
    simp [hp, h2, h3]
  refine ⟨heq, ?_⟩
  rw [heq]
  have hocc : occursIn "veterinarian".data (lcs importantNote.data) = true := by decide
  have hinf : "veterinarian".data <:+: lcs importantNote.data :=
    (occursIn_iff _ _).mp hocc
  obtain ⟨a, b, hab⟩ := hinf
  have hfull : "veterinarian".data <:+:
      lcs (List.intercalate ['\n'] (recPieces s) ++ importantNote.data) := by
    refine ⟨lcs (List.intercalate ['\n'] (recPieces s)) ++ a, b, ?_⟩
    rw [lcs_append, ← hab]
    simp
  exact (occursIn_iff _ _).mpr hfull

/-- Witness for C10 at a concrete two-line response. -/
theorem recommendations_disclaimer_appended_witness :
    recPieces "RECOMMENDATIONS:\nGive water" ≠ [] ∧
      lcHas (List.intercalate ['\n']
        (recPieces "RECOMMENDATIONS:\nGive water")) "consult" = false ∧
      lcHas (List.intercalate ['\n']
        (recPieces "RECOMMENDATIONS:\nGive water")) "veterinarian" = false ∧
      (extractRecommendations "RECOMMENDATIONS:\nGive water" =
        strOf (List.intercalate ['\n'] (recPieces "RECOMMENDATIONS:\nGive water") ++
          importantNote.data) ∧
       lcHas (extractRecommendations "RECOMMENDATIONS:\nGive water").data
          "veterinarian" = true) :=
  ⟨by decide, by decide, by decide,
    recommendations_disclaimer_appended "RECOMMENDATIONS:\nGive water"
      (by decide) (by decide) (by decide)⟩

theorem lcHas_cons_step (c : Char) (cs : List Char) (pat : String) (p0 : Char)
    (pr : List Char) (hpat : pat.data = p0 :: pr)
    (hne : (p0 == lcChar c) = false) :
    lcHas (c :: cs) pat = lcHas cs pat := by
  unfold lcHas
  rw [lcs_cons, hpat, occursIn]
  rw [show List.isPrefixOf (p0 :: pr) (lcChar c :: lcs cs) =
    ((p0 == lcChar c) && List.isPrefixOf pr (lcs cs)) from rfl]
  rw [hne]
  simp

theorem recHead_cons_skip (d : Char) (rest : List Char)
    (hd : d = '•' ∨ d = ' ' ∨ d = '\n') :
    recHead (d :: rest) = recHead rest := by
  have h1 : ('r' == lcChar d) = false := by rcases hd with rfl | rfl | rfl <;> decide
  have h2 : ('a' == lcChar d) = false := by rcases hd with rfl | rfl | rfl <;> decide
  unfold recHead
  rw [lcHas_cons_step d rest "recommendations" 'r' "ecommendations".data rfl h1,
      lcHas_cons_step d rest "advice for pet owner" 'a' "dvice for pet owner".data rfl h2,
      lcHas_cons_step d rest "advice to pet owner" 'a' "dvice to pet owner".data rfl h2]

theorem bulletWsRest_sub {t rest : List Char} (h : bulletWsRest t = some rest) :
    rest <:+: t := by
  cases t with
  | nil => exact absurd h (by simp [bulletWsRest])
  | cons c r0 =>
    simp only [bulletWsRest] at h
    split_ifs at h with hc
    obtain rfl := Option.some.inj h
    exact ((List.dropWhile_suffix isWs).trans (List.suffix_cons c r0)).isInfix

theorem recHead_fmtPiece {t : List Char} (h : recHead t = false) :
    recHead (fmtPiece t) = false := by
  have hsplit : ∀ u : List Char, u <:+: t → recHead u = false := by
    intro u hu
    unfold recHead at h ⊢
    rw [Bool.or_eq_false_iff, Bool.or_eq_false_iff] at h
    obtain ⟨⟨ha, hb⟩, hc⟩ := h
    simp [lcHas_false_of_sub ha hu, lcHas_false_of_sub hb hu,
      lcHas_false_of_sub hc hu]
  unfold fmtPiece
  split
  · next rest hb =>
    rw [recHead_cons_skip '•' _ (Or.inl rfl),
        recHead_cons_skip ' ' _ (Or.inr (Or.inl rfl))]
    exact hsplit rest (bulletWsRest_sub hb)
  · split
    · exact h
    · split
      · next c rest2 =>
        split_ifs with hu
        · rw [recHead_cons_skip '\n' _ (Or.inr (Or.inr rfl))]
          exact h
        · exact h
      · exact h

theorem hashLead_head {cs r : List Char} (h : hashLead cs = some r) :
    ∃ cs', cs = '#' :: cs' := by
  cases cs with
  | nil => exact absurd h (by simp [hashLead])
  | cons c cs' =>
    refine ⟨cs', ?_⟩
    by_cases hc : c = '#'
    · rw [hc]
    · exfalso
      unfold hashLead at h
      simp [List.takeWhile_cons, hc] at h

/-- C8 (amended): a heading line of the recommendations section is consumed
as a boundary and never collected verbatim: every collected piece either
mentions no recommendations-heading phrase at all, or it is the
`**`-reformatted copy of a markdown heading line of the input — a string
that differs from that heading line itself. -/
theorem recLoop_heading_pieces :
    ∀ (lines : List (List Char)) (flag : Bool) (p : List Char),
      p ∈ sectLoop recHead recExit lines flag →
      recHead p = false ∨
        ∃ l ∈ lines, ∃ rest, hashLead (trimL l) = some rest ∧
          p = "**".data ++ rest ++ "**".data ∧ p ≠ trimL l := by
  intro lines
  induction lines with
  | nil =>
    intro flag p hp
    exact absurd hp (by simp [sectLoop])
  | cons l ls ih =>
    intro flag p hp
    by_cases hhp : recHead (trimL l) = true
    · simp only [sectLoop, hhp, if_true] at hp
      cases hhl : hashLead (trimL l) with
      | none =>
        rw [hhl] at hp
        rcases ih true p hp with hL | ⟨x, hx, rest, e1, e2, e3⟩
        · exact Or.inl hL
        · exact Or.inr ⟨x, List.mem_cons_of_mem l hx, rest, e1, e2, e3⟩
      | some rest =>
        rw [hhl] at hp
        rcases List.mem_cons.mp hp with rfl | hp'
        · refine Or.inr ⟨l, List.mem_cons_self l ls, rest, hhl, rfl, ?_⟩
          obtain ⟨cs', hcs⟩ := hashLead_head hhl
          rw [hcs]
          intro hcontra
          have h5 := congrArg (fun x => x.head?) hcontra
          simp at h5
        · rcases ih true p hp' with hL | ⟨x, hx, e0, e1, e2, e3⟩
          · exact Or.inl hL
          · exact Or.inr ⟨x, List.mem_cons_of_mem l hx, e0, e1, e2, e3⟩
    · have hh' : recHead (trimL l) = false := by
        revert hhp
        cases recHead (trimL l) <;> simp
      simp only [sectLoop, hh'] at hp
      simp only [Bool.false_eq_true, if_false] at hp
      split at hp
      · exact absurd hp (by simp)
      · split at hp
        · rcases List.mem_cons.mp hp with rfl | hp'
          · exact Or.inl (recHead_fmtPiece hh')
          · rcases ih flag p hp' with hL | ⟨x, hx, e0, e1, e2, e3⟩
            · exact Or.inl hL
            · exact Or.inr ⟨x, List.mem_cons_of_mem l hx, e0, e1, e2, e3⟩
        · rcases ih flag p hp with hL | ⟨x, hx, e0, e1, e2, e3⟩
          · exact Or.inl hL
          · exact Or.inr ⟨x, List.mem_cons_of_mem l hx, e0, e1, e2, e3⟩

/-- C8 counterexample: with the heading lines `# Recommendations` and
`## # Recommendations x`, the `**`-reformatted copy of the second heading
makes the returned text contain the first recommendations heading line
verbatim — contradicting the claim that the heading line never reaches the
output. -/
theorem recommendations_output_contains_heading_line :
    occursIn "# Recommendations".data
        (extractRecommendations "# Recommendations\n## # Recommendations x").data = true ∧
      recHead (trimL "# Recommendations".data) = true := by decide

/-- Witness for C8 (amended) at a concrete one-line input whose heading is a
markdown heading. -/
theorem recLoop_heading_pieces_witness :
    "**Recommendations x**".data ∈
        sectLoop recHead recExit (splitNl "# Recommendations x".data) false ∧
      (recHead "**Recommendations x**".data = false ∨
        ∃ l ∈ splitNl "# Recommendations x".data, ∃ rest,
          hashLead (trimL l) = some rest ∧
          "**Recommendations x**".data = "**".data ++ rest ++ "**".data ∧
          "**Recommendations x**".data ≠ trimL l) :=
  ⟨by decide,
    recLoop_heading_pieces (splitNl "# Recommendations x".data) false
      "**Recommendations x**".data (by decide)⟩

theorem haversine_0_0_0_1 :
    calculateDistance 0 0 0 1 = jsRound (6371 * (Real.pi / 180) * 10) / 10 := by
  unfold calculateDistance
  dsimp only
  have hθ1 : (0 : ℝ) < Real.pi / 360 := by positivity
  have hθ2 : Real.pi / 360 < Real.pi / 2 := by nlinarith [Real.pi_pos]
  have hθ3 : -(Real.pi / 2) < Real.pi / 360 := by nlinarith [Real.pi_pos]
  have hsin : 0 ≤ Real.sin (Real.pi / 360) :=
    Real.sin_nonneg_of_nonneg_of_le_pi (le_of_lt hθ1) (by nlinarith [Real.pi_pos])
  have hcos : 0 < Real.cos (Real.pi / 360) := Real.cos_pos_of_mem_Ioo ⟨hθ3, hθ2⟩
  have e0 : deg2rad (0 - 0) / 2 = 0 := by simp [deg2rad]
  have e1 : deg2rad (1 - 0) / 2 = Real.pi / 360 := by
    unfold deg2rad
    ring
  have e2 : Real.cos (deg2rad 0) = 1 := by simp [deg2rad]
  rw [e0, e1, e2, Real.sin_zero]
  have ea : (0 : ℝ) * 0 + 1 * 1 * Real.sin (Real.pi / 360) * Real.sin (Real.pi / 360) =
      Real.sin (Real.pi / 360) ^ 2 := by ring
  rw [ea]
  have eb : (1 : ℝ) - Real.sin (Real.pi / 360) ^ 2 = Real.cos (Real.pi / 360) ^ 2 := by
    nlinarith [Real.sin_sq_add_cos_sq (Real.pi / 360)]
  rw [eb, Real.sqrt_sq hsin, Real.sqrt_sq (le_of_lt hcos)]
  unfold atan2
  rw [if_pos hcos, ← Real.tan_eq_sin_div_cos, Real.arctan_tan hθ3 hθ2]
  have ec : (6371 : ℝ) * (2 * (Real.pi / 360)) * 10 = 6371 * (Real.pi / 180) * 10 := by
    ring
  rw [ec]

/-- C9: the clinic list built by `findNearbyVets` is sorted ascending by the
haversine distance (`R = 6371` km, rounded to one decimal place) from the
user's coordinate, and the computed distance from `(0, 0)` to `(0, 1)` is
`111.2` km up to the `±0.5` km tolerance. -/
theorem clinicFinder_sorted_and_haversine :
    (∀ (userLat userLon : ℝ) (els : List OverpassElement),
      ((processClinics userLat userLon els).map (fun c => c.distance)).Sorted (· ≤ ·)) ∧
      |calculateDistance 0 0 0 1 - 111.2| ≤ 0.5 := by
  constructor
  · intro userLat userLon els
    unfold processClinics sortClinics
    have hms := @List.sorted_mergeSort VetClinic
      (fun a b : VetClinic =>
        @decide (a.distance ≤ b.distance) (Classical.propDecidable _))
      (by
        intro a b c hab hbc
        simp only [decide_eq_true_eq] at hab hbc ⊢
        exact le_trans hab hbc)
      (by
        intro a b
        simp only [Bool.or_eq_true, decide_eq_true_eq]
        exact le_total a.distance b.distance)
      ((els.filter (fun e => e.isVetNode)).map (fun e =>
        ⟨e.id, e.name, e.lat, e.lon, e.address,
         calculateDistance userLat userLon e.lat e.lon⟩))
    exact List.Pairwise.map _ (fun a b h => by
      simpa only [decide_eq_true_eq] using h) hms
  · rw [haversine_0_0_0_1]
    have hlo : (3.14 : ℝ) < Real.pi := Real.pi_gt_d2
    have hhi : Real.pi < 3.15 := Real.pi_lt_d2
    have hf1 : jsRound (6371 * (Real.pi / 180) * 10) ≤
        6371 * (Real.pi / 180) * 10 + 1 / 2 := by
      unfold jsRound
      exact_mod_cast Int.floor_le _
    have hf2 : 6371 * (Real.pi / 180) * 10 + 1 / 2 - 1 <
        jsRound (6371 * (Real.pi / 180) * 10) := by
      unfold jsRound
      exact_mod_cast Int.sub_one_lt_floor _
    rw [abs_le]
    constructor <;> nlinarith [hlo, hhi, hf1, hf2]
